import Mathlib

set_option maxRecDepth 100000

/-!
Verification of the moiré-removal pipeline of `remove_moiree.py`:
the frequency-domain suppression transform, the entropy binarization,
the tone recalibration, the grayscale classification, the per-file
dispatch and the batch orchestrator.  Each source function is embedded
as a Lean definition over exact arithmetic (ℚ/ℝ/ℂ in place of the
floating-point types of the source) and the spec's claims are settled
as theorems about these definitions.
-/

namespace Moire

/-! ## Discrete Fourier transform (embedding of `np.fft.fft2` / `np.fft.ifft2`)

`omega N = exp(2πi/N)`; `np.fft.fft` computes
`X_k = Σ_j x_j · exp(-2πi·k·j/N)` and `np.fft.ifft` computes
`x_j = (1/N) Σ_k X_k · exp(2πi·k·j/N)`; the 2D variants apply the 1D
transform along each axis. -/

noncomputable def omega (N : ℕ) : ℂ := Complex.exp (2 * Real.pi * Complex.I / N)

noncomputable def dft (N : ℕ) (x : Fin N → ℂ) (k : Fin N) : ℂ :=
  ∑ j : Fin N, x j * omega N ^ (-((k : ℤ) * (j : ℤ)))

noncomputable def idft (N : ℕ) (y : Fin N → ℂ) (j : Fin N) : ℂ :=
  (N : ℂ)⁻¹ * ∑ k : Fin N, y k * omega N ^ ((k : ℤ) * (j : ℤ))

noncomputable def fft2 (m n : ℕ) (X : Fin m → Fin n → ℂ) (k : Fin m) (l : Fin n) : ℂ :=
  dft m (fun a => dft n (X a) l) k

noncomputable def ifft2 (m n : ℕ) (Y : Fin m → Fin n → ℂ) (a : Fin m) (b : Fin n) : ℂ :=
  idft n (fun l => idft m (fun k => Y k l) a) b

lemma omega_ne_zero (N : ℕ) : omega N ≠ 0 := Complex.exp_ne_zero _

lemma omega_zpow_N (N : ℕ) (hN : N ≠ 0) : omega N ^ (N : ℤ) = 1 := by
  have h := (Complex.isPrimitiveRoot_exp N hN).pow_eq_one
  rw [zpow_natCast]
  exact h

lemma omega_zpow_eq_one_iff (N : ℕ) (hN : N ≠ 0) (z : ℤ) :
    omega N ^ z = 1 ↔ (N : ℤ) ∣ z :=
  (Complex.isPrimitiveRoot_exp N hN).zpow_eq_one_iff_dvd z

/-- Orthogonality of the DFT characters: summing `ω^(k(j-j'))` over `k`
gives `N` on the diagonal and `0` off it. -/
lemma sum_omega_char (N : ℕ) (j j' : Fin N) :
    ∑ k : Fin N, omega N ^ ((k : ℤ) * ((j : ℤ) - (j' : ℤ)))
      = if j = j' then (N : ℂ) else 0 := by
  have hN : N ≠ 0 := j.pos.ne'
  set z : ℤ := (j : ℤ) - (j' : ℤ) with hz
  have hterm : ∀ k : Fin N, omega N ^ ((k : ℤ) * z) = (omega N ^ z) ^ (k : ℕ) := by
    intro k
    rw [mul_comm, zpow_mul, zpow_natCast]
  by_cases hjj : j = j'
  · subst hjj
    simp only [hz, sub_self, mul_zero, zpow_zero]
    simp
  · rw [if_neg hjj]
    have hzne : z ≠ 0 := by
      simp only [hz, sub_ne_zero]
      exact_mod_cast fun h => hjj (Fin.ext (by exact_mod_cast h))
    have hζ : omega N ^ z ≠ 1 := by
      intro hone
      have hdvd := (omega_zpow_eq_one_iff N hN z).mp hone
      have h1 : (N : ℤ) ≤ |z| := Int.le_of_dvd (abs_pos.mpr hzne) ((dvd_abs _ _).mpr hdvd)
      have h2 : |z| < (N : ℤ) := by
        rw [abs_sub_lt_iff]
        constructor
        · have := j'.isLt
          have := j.isLt
          omega
        · have := j'.isLt
          have := j.isLt
          omega
      omega
    have hζN : (omega N ^ z) ^ N = 1 := by
      rw [← zpow_natCast, ← zpow_mul, mul_comm, zpow_mul, omega_zpow_N N hN, one_zpow]
    calc ∑ k : Fin N, omega N ^ ((k : ℤ) * z)
        = ∑ k : Fin N, (omega N ^ z) ^ (k : ℕ) := by
          exact Finset.sum_congr rfl fun k _ => hterm k
      _ = ∑ k ∈ Finset.range N, (omega N ^ z) ^ k :=
          Fin.sum_univ_eq_sum_range (fun k => (omega N ^ z) ^ k) N
      _ = ((omega N ^ z) ^ N - 1) / (omega N ^ z - 1) := geom_sum_eq hζ N
      _ = 0 := by rw [hζN]; simp

/-- 1D inversion: `idft` is a left inverse of `dft`. -/
lemma idft_dft (N : ℕ) (x : Fin N → ℂ) (j : Fin N) : idft N (dft N x) j = x j := by
  have hN : N ≠ 0 := j.pos.ne'
  unfold idft dft
  have hswap :
      ∑ k : Fin N, (∑ j' : Fin N, x j' * omega N ^ (-((k : ℤ) * (j' : ℤ))))
          * omega N ^ ((k : ℤ) * (j : ℤ))
        = ∑ j' : Fin N, x j' * ∑ k : Fin N,
            omega N ^ ((k : ℤ) * ((j : ℤ) - (j' : ℤ))) := by
    calc ∑ k : Fin N, (∑ j' : Fin N, x j' * omega N ^ (-((k : ℤ) * (j' : ℤ))))
            * omega N ^ ((k : ℤ) * (j : ℤ))
        = ∑ k : Fin N, ∑ j' : Fin N,
            x j' * omega N ^ ((k : ℤ) * ((j : ℤ) - (j' : ℤ))) := by
          refine Finset.sum_congr rfl fun k _ => ?_
          rw [Finset.sum_mul]
          refine Finset.sum_congr rfl fun j' _ => ?_
          have hexp : -((k : ℤ) * (j' : ℤ)) + (k : ℤ) * (j : ℤ)
              = (k : ℤ) * ((j : ℤ) - (j' : ℤ)) := by ring
          rw [mul_assoc, ← zpow_add₀ (omega_ne_zero N), hexp]
      _ = ∑ j' : Fin N, ∑ k : Fin N,
            x j' * omega N ^ ((k : ℤ) * ((j : ℤ) - (j' : ℤ))) := Finset.sum_comm
      _ = ∑ j' : Fin N, x j' * ∑ k : Fin N,
            omega N ^ ((k : ℤ) * ((j : ℤ) - (j' : ℤ))) := by
          refine Finset.sum_congr rfl fun j' _ => ?_
          rw [Finset.mul_sum]
  rw [hswap]
  have hdiag : ∀ j' : Fin N,
      x j' * ∑ k : Fin N, omega N ^ ((k : ℤ) * ((j : ℤ) - (j' : ℤ)))
        = if j' = j then x j' * N else 0 := by
    intro j'
    rw [sum_omega_char]
    by_cases h : j = j'
    · subst h; simp
    · rw [if_neg h, if_neg (fun hc => h hc.symm), mul_zero]
  rw [Finset.sum_congr rfl fun j' _ => hdiag j', Finset.sum_ite_eq' Finset.univ j
    (fun j' => x j' * N)]
  simp only [Finset.mem_univ, if_true]
  have hNc : (N : ℂ) ≠ 0 := Nat.cast_ne_zero.mpr hN
  field_simp

/-- 2D inversion: `ifft2` is a left inverse of `fft2`. -/
lemma ifft2_fft2 (m n : ℕ) (X : Fin m → Fin n → ℂ) (a : Fin m) (b : Fin n) :
    ifft2 m n (fft2 m n X) a b = X a b := by
  unfold ifft2 fft2
  have h1 : ∀ l : Fin n,
      idft m (fun k => dft m (fun a' => dft n (X a') l) k) a = dft n (X a) l := by
    intro l
    exact idft_dft m (fun a' => dft n (X a') l) a
  calc idft n (fun l => idft m (fun k => dft m (fun a' => dft n (X a') l) k) a) b
      = idft n (fun l => dft n (X a) l) b := by
        exact congrArg (fun f => idft n f b) (funext h1)
    _ = X a b := idft_dft n (X a) b

/-! ## Masked reconstruction (embedding of steps 6–7 of `remove_moire_algorithm`)

The source builds a uint8 mask in the center-shifted domain, inverse-shifts
it with `np.fft.ifftshift` (a roll by `-(n // 2)`, so entry `i` reads entry
`(i + n/2) % n`), scales it to `[0,1]` by dividing by 255, multiplies the
unshifted spectrum pointwise and takes the real part of the inverse
transform. -/

def ifftshiftIdx (n : ℕ) (i : Fin n) : Fin n :=
  ⟨(i + n / 2) % n, Nat.mod_lt _ i.pos⟩

noncomputable def maskedReconstruct (m n : ℕ) (img : Fin m → Fin n → ℝ)
    (mask : Fin m → Fin n → ℕ) (a : Fin m) (b : Fin n) : ℝ :=
  (ifft2 m n (fun k l =>
    fft2 m n (fun x y => ((img x y : ℝ) : ℂ)) k l *
      (((mask (ifftshiftIdx m k) (ifftshiftIdx n l) : ℝ) / 255 : ℝ) : ℂ)) a b).re

/-- C1: for every grayscale image matrix, if the suppression mask is forced
to all-ones (value 255 at every spectrum position, hence multiplier 1 after
the division by 255), the real part of the inverse 2D Fourier transform of
the masked unshifted spectrum — step 7 of `remove_moire_algorithm`, before
the final 0–255 normalization — equals the input image matrix exactly in
exact arithmetic: the forward/inverse transform pair composed with an
identity mask is the identity. -/
theorem identity_mask_round_trip (m n : ℕ) (img : Fin m → Fin n → ℝ)
    (a : Fin m) (b : Fin n) :
    maskedReconstruct m n img (fun _ _ => 255) a b = img a b := by
  unfold maskedReconstruct
  have hmask : ∀ (k : Fin m) (l : Fin n),
      fft2 m n (fun x y => ((img x y : ℝ) : ℂ)) k l *
          ((((255 : ℕ) : ℝ) / 255 : ℝ) : ℂ)
        = fft2 m n (fun x y => ((img x y : ℝ) : ℂ)) k l := by
    intro k l
    norm_num
  rw [show (fun k l =>
      fft2 m n (fun x y => ((img x y : ℝ) : ℂ)) k l *
        ((((fun (_ : Fin m) (_ : Fin n) => (255:ℕ)) (ifftshiftIdx m k)
            (ifftshiftIdx n l) : ℝ) / 255 : ℝ) : ℂ))
      = fun k l => fft2 m n (fun x y => ((img x y : ℝ) : ℂ)) k l from
    funext fun k => funext fun l => hmask k l]
  rw [ifft2_fft2]
  exact Complex.ofReal_re _

end Moire

namespace Normalize

/-! ## Tone recalibration (embedding of `normalize_image`)

The source computes, over the original uint8 grayscale matrix, the mask of
positions with value ≥ 255 (white) and ≤ 0 (black), averages the processed
image over each mask (defaulting to 255 resp. 0 on an empty mask), rescales
`(v - avg_black) / denom` with `denom = avg_white - avg_black` guarded to 1
on equality, clips to `[0,1]`, multiplies by 255, truncates to uint8, and
finally overwrites the black- and white-mask positions with the original
values.  Floating point is modelled by exact ℚ arithmetic. -/

def whiteMask (h w : ℕ) (orig : Fin h → Fin w → ℕ) : Finset (Fin h × Fin w) :=
  Finset.univ.filter fun p => 255 ≤ orig p.1 p.2

def blackMask (h w : ℕ) (orig : Fin h → Fin w → ℕ) : Finset (Fin h × Fin w) :=
  Finset.univ.filter fun p => orig p.1 p.2 ≤ 0

def avg_white (h w : ℕ) (orig proc : Fin h → Fin w → ℕ) : ℚ :=
  if (whiteMask h w orig).card ≠ 0 then
    (∑ p ∈ whiteMask h w orig, (proc p.1 p.2 : ℚ)) / (whiteMask h w orig).card
  else 255

def avg_black (h w : ℕ) (orig proc : Fin h → Fin w → ℕ) : ℚ :=
  if (blackMask h w orig).card ≠ 0 then
    (∑ p ∈ blackMask h w orig, (proc p.1 p.2 : ℚ)) / (blackMask h w orig).card
  else 0

def denom (h w : ℕ) (orig proc : Fin h → Fin w → ℕ) : ℚ :=
  if avg_white h w orig proc ≠ avg_black h w orig proc then
    avg_white h w orig proc - avg_black h w orig proc
  else 1

/-- `np.clip(·, 0, 1)`. -/
def clip01 (q : ℚ) : ℚ := min 1 (max 0 q)

/-- `astype(np.uint8)` on a value already in `[0, 255]`: truncation. -/
def toUint8 (q : ℚ) : ℕ := Int.toNat ⌊q⌋

def normalize_image (h w : ℕ) (orig proc : Fin h → Fin w → ℕ) :
    Fin h → Fin w → ℕ := fun i j =>
  if 255 ≤ orig i j then orig i j
  else if orig i j ≤ 0 then orig i j
  else toUint8 (255 * clip01 (((proc i j : ℚ) - avg_black h w orig proc) /
    denom h w orig proc))

/-- C2: a pixel that is exactly 0 in the source image matrix is exactly 0 in
the tone-corrected image, and a pixel that is exactly 255 is exactly 255,
for any processed image — in particular for the output of the suppression
transform, so the full per-file pipeline preserves both reference values. -/
theorem reference_point_preservation (h w : ℕ) (orig : Fin h → Fin w → ℕ)
    (pipeline : (Fin h → Fin w → ℕ) → Fin h → Fin w → ℕ) (i : Fin h) (j : Fin w) :
    (orig i j = 0 → normalize_image h w orig (pipeline orig) i j = 0) ∧
    (orig i j = 255 → normalize_image h w orig (pipeline orig) i j = 255) := by
  constructor
  · intro h0
    unfold normalize_image
    rw [h0]
    norm_num
  · intro h255
    unfold normalize_image
    rw [h255]
    norm_num

/-- C2 witness: evaluation on a concrete 1×2 image with one pixel 0 and one
pixel 255, processed by an arbitrary concrete pipeline. -/
theorem reference_point_preservation_witness :
    normalize_image 1 2 (fun (_ : Fin 1) (j : Fin 2) => if j = 0 then 0 else 255)
      ((fun o => o) (fun (_ : Fin 1) (j : Fin 2) => if j = 0 then 0 else 255)) 0 0 = 0 ∧
    normalize_image 1 2 (fun (_ : Fin 1) (j : Fin 2) => if j = 0 then 0 else 255)
      ((fun o => o) (fun (_ : Fin 1) (j : Fin 2) => if j = 0 then 0 else 255)) 0 1 = 255 :=
  ⟨(reference_point_preservation 1 2 (fun _ j => if j = 0 then 0 else 255)
      (fun o => o) 0 0).1 (by decide),
   (reference_point_preservation 1 2 (fun _ j => if j = 0 then 0 else 255)
      (fun o => o) 0 1).2 (by decide)⟩

/-! Claim-side definitions for C5, written from the spec's wording: the
white/black reference sets are the positions *exactly* 255 / 0, the averages
default to 255/0 on empty sets, the rescale sends `avg_black ↦ 0`,
`avg_white ↦ 255` with denominator 1 when the averages coincide, and the
result is clipped to `[0, 255]`. -/

def whiteRefSpec (h w : ℕ) (orig : Fin h → Fin w → ℕ) : Finset (Fin h × Fin w) :=
  Finset.univ.filter fun p => orig p.1 p.2 = 255

def blackRefSpec (h w : ℕ) (orig : Fin h → Fin w → ℕ) : Finset (Fin h × Fin w) :=
  Finset.univ.filter fun p => orig p.1 p.2 = 0

def avgWhiteSpec (h w : ℕ) (orig proc : Fin h → Fin w → ℕ) : ℚ :=
  if (whiteRefSpec h w orig).card = 0 then 255
  else (∑ p ∈ whiteRefSpec h w orig, (proc p.1 p.2 : ℚ)) / (whiteRefSpec h w orig).card

def avgBlackSpec (h w : ℕ) (orig proc : Fin h → Fin w → ℕ) : ℚ :=
  if (blackRefSpec h w orig).card = 0 then 0
  else (∑ p ∈ blackRefSpec h w orig, (proc p.1 p.2 : ℚ)) / (blackRefSpec h w orig).card

def denomSpec (h w : ℕ) (orig proc : Fin h → Fin w → ℕ) : ℚ :=
  if avgWhiteSpec h w orig proc = avgBlackSpec h w orig proc then 1
  else avgWhiteSpec h w orig proc - avgBlackSpec h w orig proc

/-- The spec's rescale-and-clip of one processed value to `[0, 255]`. -/
def rescaleSpec (h w : ℕ) (orig proc : Fin h → Fin w → ℕ) (i : Fin h) (j : Fin w) : ℚ :=
  min 255 (max 0 (255 * (((proc i j : ℚ) - avgBlackSpec h w orig proc) /
    denomSpec h w orig proc)))

lemma whiteMask_eq_spec (h w : ℕ) (orig : Fin h → Fin w → ℕ)
    (hb : ∀ i j, orig i j ≤ 255) : whiteMask h w orig = whiteRefSpec h w orig := by
  unfold whiteMask whiteRefSpec
  refine Finset.filter_congr fun p _ => ?_
  have := hb p.1 p.2
  constructor <;> (intro hp; omega)

lemma blackMask_eq_spec (h w : ℕ) (orig : Fin h → Fin w → ℕ) :
    blackMask h w orig = blackRefSpec h w orig := by
  unfold blackMask blackRefSpec
  refine Finset.filter_congr fun p _ => ?_
  constructor <;> (intro hp; omega)

lemma avg_white_eq_spec (h w : ℕ) (orig proc : Fin h → Fin w → ℕ)
    (hb : ∀ i j, orig i j ≤ 255) :
    avg_white h w orig proc = avgWhiteSpec h w orig proc := by
  unfold avg_white avgWhiteSpec
  rw [whiteMask_eq_spec h w orig hb]
  by_cases hc : (whiteRefSpec h w orig).card = 0
  · rw [if_neg (by omega), if_pos hc]
  · rw [if_pos hc, if_neg hc]

lemma avg_black_eq_spec (h w : ℕ) (orig proc : Fin h → Fin w → ℕ) :
    avg_black h w orig proc = avgBlackSpec h w orig proc := by
  unfold avg_black avgBlackSpec
  rw [blackMask_eq_spec h w orig]
  by_cases hc : (blackRefSpec h w orig).card = 0
  · rw [if_neg (by omega), if_pos hc]
  · rw [if_pos hc, if_neg hc]

lemma denom_eq_spec (h w : ℕ) (orig proc : Fin h → Fin w → ℕ)
    (hb : ∀ i j, orig i j ≤ 255) :
    denom h w orig proc = denomSpec h w orig proc := by
  unfold denom denomSpec
  rw [avg_white_eq_spec h w orig proc hb, avg_black_eq_spec h w orig proc]
  by_cases hc : avgWhiteSpec h w orig proc = avgBlackSpec h w orig proc
  · rw [if_neg (by simpa using hc), if_pos hc]
  · rw [if_pos hc, if_neg hc]

/-- C5: the tone recalibration's averages are the means of the processed
image over the positions exactly 255 resp. exactly 0 in the original, with
defaults 255 and 0 on empty reference sets; away from the overwritten
reference positions, the output pixel is the truncation of the spec's
linear rescale (avg_black ↦ 0, avg_white ↦ 255, denominator guarded to 1
on equality) clipped to `[0, 255]`. -/
theorem tone_recalibration_formula (h w : ℕ) (orig proc : Fin h → Fin w → ℕ)
    (hb : ∀ i j, orig i j ≤ 255) (i : Fin h) (j : Fin w) :
    avg_white h w orig proc = avgWhiteSpec h w orig proc ∧
    avg_black h w orig proc = avgBlackSpec h w orig proc ∧
    (orig i j ≠ 0 → orig i j ≠ 255 →
      normalize_image h w orig proc i j = toUint8 (rescaleSpec h w orig proc i j)) := by
  refine ⟨avg_white_eq_spec h w orig proc hb, avg_black_eq_spec h w orig proc, ?_⟩
  intro h0 h255
  have hlt : orig i j < 255 := lt_of_le_of_ne (hb i j) h255
  unfold normalize_image rescaleSpec
  rw [if_neg (by omega), if_neg (by omega)]
  rw [avg_black_eq_spec h w orig proc, denom_eq_spec h w orig proc hb]
  congr 1
  unfold clip01
  rw [mul_min_of_nonneg _ _ (by norm_num : (0:ℚ) ≤ 255),
    mul_max_of_nonneg _ _ (by norm_num : (0:ℚ) ≤ 255)]
  norm_num

/-- C5 witness: the formula evaluated on a concrete 1×3 image with a white,
a black and an interior pixel. -/
theorem tone_recalibration_formula_witness :
    avg_white 1 3 (fun _ j => if j = 0 then 0 else if j = 1 then 255 else 100)
        (fun _ j => (j : ℕ) * 50 + 20)
      = avgWhiteSpec 1 3 (fun _ j => if j = 0 then 0 else if j = 1 then 255 else 100)
        (fun _ j => (j : ℕ) * 50 + 20) ∧
    avg_black 1 3 (fun _ j => if j = 0 then 0 else if j = 1 then 255 else 100)
        (fun _ j => (j : ℕ) * 50 + 20)
      = avgBlackSpec 1 3 (fun _ j => if j = 0 then 0 else if j = 1 then 255 else 100)
        (fun _ j => (j : ℕ) * 50 + 20) ∧
    ((fun _ j => if j = 0 then 0 else if j = 1 then 255 else 100) (0 : Fin 1) (2 : Fin 3) ≠ 0 →
     (fun _ j => if j = 0 then 0 else if j = 1 then 255 else 100) (0 : Fin 1) (2 : Fin 3) ≠ 255 →
      normalize_image 1 3 (fun _ j => if j = 0 then 0 else if j = 1 then 255 else 100)
          (fun _ j => (j : ℕ) * 50 + 20) 0 2
        = toUint8 (rescaleSpec 1 3 (fun _ j => if j = 0 then 0 else if j = 1 then 255 else 100)
          (fun _ j => (j : ℕ) * 50 + 20) 0 2)) :=
  tone_recalibration_formula 1 3 (fun _ j => if j = 0 then 0 else if j = 1 then 255 else 100)
    (fun _ j => (j : ℕ) * 50 + 20) (by decide) 0 2

end Normalize

namespace Grayscale

/-! ## Grayscale classification (embedding of `is_grayscale`)

The source opens the image and branches on its PIL mode: for `RGB` or
`RGBA` it scans every pixel, reading only the first three channel values,
and returns `False` at the first pixel with `r ≠ g` or `g ≠ b`; for `L` it
returns `True`; for every other mode it returns `False`. -/

inductive PixMode
  | L
  | RGB
  | RGBA
  | Other
deriving DecidableEq

structure PILImage where
  mode : PixMode
  width : ℕ
  height : ℕ
  /-- channel values at `(x, y)` as `(r, g, b, a)`; for mode `L` only the
  first component is meaningful, for `RGB` the first three. -/
  px : ℕ → ℕ → ℕ × ℕ × ℕ × ℕ

def pxR (img : PILImage) (x y : ℕ) : ℕ := (img.px x y).1
def pxG (img : PILImage) (x y : ℕ) : ℕ := (img.px x y).2.1
def pxB (img : PILImage) (x y : ℕ) : ℕ := (img.px x y).2.2.1
def pxA (img : PILImage) (x y : ℕ) : ℕ := (img.px x y).2.2.2

def is_grayscale (img : PILImage) : Bool :=
  match img.mode with
  | .RGB | .RGBA =>
    (List.range img.height).all fun y =>
      (List.range img.width).all fun x =>
        pxR img x y == pxG img x y && pxG img x y == pxB img x y
  | .L => true
  | .Other => false

/-- PIL `convert("L")` (ITU-R 601-2 fixed point, as in PIL's `L24` macro):
`L = (19595·R + 38470·G + 7471·B + 0x8000) >> 16`; the alpha channel does
not enter the formula. -/
def convertL (img : PILImage) (x y : ℕ) : ℕ :=
  (19595 * pxR img x y + 38470 * pxG img x y + 7471 * pxB img x y + 32768) / 65536

/-- C6: classification yields grayscale for every single-channel (mode `L`)
image; a multi-channel (`RGB`/`RGBA`) image is classified grayscale exactly
when the exhaustive per-pixel scan finds the colour channel values of every
pixel identical; and any other channel layout is classified non-grayscale —
the function is total, never an error. -/
theorem grayscale_classification (img : PILImage) :
    (img.mode = PixMode.L → is_grayscale img = true) ∧
    ((img.mode = PixMode.RGB ∨ img.mode = PixMode.RGBA) →
      (is_grayscale img = true ↔ ∀ y < img.height, ∀ x < img.width,
        pxR img x y = pxG img x y ∧ pxG img x y = pxB img x y)) ∧
    (img.mode = PixMode.Other → is_grayscale img = false) := by
  refine ⟨?_, ?_, ?_⟩
  · intro hm
    unfold is_grayscale
    rw [hm]
  · intro hm
    have hscan : is_grayscale img =
        ((List.range img.height).all fun y =>
          (List.range img.width).all fun x =>
            pxR img x y == pxG img x y && pxG img x y == pxB img x y) := by
      rcases hm with hm | hm <;> (unfold is_grayscale; rw [hm])
    rw [hscan]
    simp only [List.all_eq_true, List.mem_range, Bool.and_eq_true, beq_iff_eq]
  · intro hm
    unfold is_grayscale
    rw [hm]

/-- C6 witness: a concrete mode-`L` image, a concrete RGB image with equal
channels, and a concrete `Other`-mode image. -/
theorem grayscale_classification_witness :
    is_grayscale ⟨PixMode.L, 2, 2, fun _ _ => (7, 9, 11, 0)⟩ = true ∧
    is_grayscale ⟨PixMode.RGB, 2, 2, fun x y => (x + y, x + y, x + y, 3)⟩ = true ∧
    is_grayscale ⟨PixMode.Other, 2, 2, fun _ _ => (7, 7, 7, 0)⟩ = false :=
  ⟨(grayscale_classification _).1 rfl,
   ((grayscale_classification ⟨PixMode.RGB, 2, 2, fun x y => (x + y, x + y, x + y, 3)⟩).2.1
      (Or.inl rfl)).mpr (fun _ _ _ _ => ⟨rfl, rfl⟩),
   (grayscale_classification _).2.2 rfl⟩

/-- C9: for RGBA images the alpha channel is never inspected: an image
whose R, G, B channels are pixelwise identical is classified grayscale
whatever its alpha values are, classification is invariant under any change
of the alpha channel alone, and the single-channel matrix handed to the
processing pipeline (the `convert("L")` luminance) is likewise independent
of alpha — the alpha information is discarded. -/
theorem rgba_alpha_ignored (img img' : PILImage)
    (hmode : img.mode = PixMode.RGBA) (hmode' : img'.mode = PixMode.RGBA)
    (hw : img'.width = img.width) (hh : img'.height = img.height)
    (hrgb : ∀ x y, pxR img' x y = pxR img x y ∧ pxG img' x y = pxG img x y ∧
      pxB img' x y = pxB img x y) :
    ((∀ x y, pxR img x y = pxG img x y ∧ pxG img x y = pxB img x y) →
      is_grayscale img = true) ∧
    is_grayscale img' = is_grayscale img ∧
    (∀ x y, convertL img' x y = convertL img x y) := by
  refine ⟨?_, ?_, ?_⟩
  · intro hgray
    unfold is_grayscale
    rw [hmode]
    simp only [List.all_eq_true, List.mem_range, Bool.and_eq_true, beq_iff_eq]
    intro y _ x _
    exact (hgray x y)
  · have hscan' : is_grayscale img' =
        ((List.range img.height).all fun y =>
          (List.range img.width).all fun x =>
            pxR img' x y == pxG img' x y && pxG img' x y == pxB img' x y) := by
      unfold is_grayscale
      rw [hmode', hw, hh]
    have hscan : is_grayscale img =
        ((List.range img.height).all fun y =>
          (List.range img.width).all fun x =>
            pxR img x y == pxG img x y && pxG img x y == pxB img x y) := by
      unfold is_grayscale
      rw [hmode]
    rw [hscan, hscan']
    congr 1
    funext y
    congr 1
    funext x
    rw [(hrgb x y).1, (hrgb x y).2.1, (hrgb x y).2.2]
  · intro x y
    unfold convertL
    rw [(hrgb x y).1, (hrgb x y).2.1, (hrgb x y).2.2]

/-- C9 witness: two concrete 1×1 RGBA images with equal colour channels and
different alpha values are both classified grayscale and convert to the
same luminance matrix. -/
theorem rgba_alpha_ignored_witness :
    ((∀ x y, pxR ⟨PixMode.RGBA, 1, 1, fun _ _ => (10, 10, 10, 0)⟩ x y
        = pxG ⟨PixMode.RGBA, 1, 1, fun _ _ => (10, 10, 10, 0)⟩ x y ∧
      pxG ⟨PixMode.RGBA, 1, 1, fun _ _ => (10, 10, 10, 0)⟩ x y
        = pxB ⟨PixMode.RGBA, 1, 1, fun _ _ => (10, 10, 10, 0)⟩ x y) →
      is_grayscale ⟨PixMode.RGBA, 1, 1, fun _ _ => (10, 10, 10, 0)⟩ = true) ∧
    is_grayscale ⟨PixMode.RGBA, 1, 1, fun _ _ => (10, 10, 10, 200)⟩
      = is_grayscale ⟨PixMode.RGBA, 1, 1, fun _ _ => (10, 10, 10, 0)⟩ ∧
    (∀ x y, convertL ⟨PixMode.RGBA, 1, 1, fun _ _ => (10, 10, 10, 200)⟩ x y
      = convertL ⟨PixMode.RGBA, 1, 1, fun _ _ => (10, 10, 10, 0)⟩ x y) :=
  rgba_alpha_ignored ⟨PixMode.RGBA, 1, 1, fun _ _ => (10, 10, 10, 0)⟩
    ⟨PixMode.RGBA, 1, 1, fun _ _ => (10, 10, 10, 200)⟩
    rfl rfl rfl rfl (fun _ _ => ⟨rfl, ⟨rfl, rfl⟩⟩)

end Grayscale

namespace Dispatch

/-! ## Per-file dispatch (embedding of `process_single_image`)

The source verifies the file with PIL; on verification failure it falls
into the copy-if-stale branch.  A readable file is classified with
`is_grayscale`: grayscale files are always run through
`process_and_save_moire_removed_image`, which writes the output
unconditionally; non-grayscale files are copied with `shutil.copy2`
(which preserves the source's modification time), but the copy is skipped
when the output already exists and is not older than the input.  The whole
body sits in a `try`/`except` that logs any exception and returns
normally. -/

/-- The slice of the filesystem one work unit touches: the input file's
bytes and modification time and the state of its mirrored output path. -/
structure FileSys where
  inputBytes : List ℕ
  inputMtime : ℕ
  /-- `none` = no file at the output path; `some (bytes, mtime)` otherwise. -/
  output : Option (List ℕ × ℕ)
deriving DecidableEq

/-- Result of `Image.open` + `verify`: unreadable, or a decoded image. -/
inductive Decoded
  | unreadable
  | image (img : Grayscale.PILImage)

/-- One file-work unit: its filesystem slice, its decode result, and the
behaviour of the two effectful calls made for it — the grayscale pipeline
(`Except.error` = the pipeline raises) and `shutil.copy2` (`some e` = the
copy raises `e`). `now` is the wall-clock time a fresh write receives. -/
structure WorkUnit where
  fs : FileSys
  decoded : Decoded
  pipeline : Except String (List ℕ)
  copyExc : Option String
  now : ℕ

/-- `not os.path.exists(output) or os.path.getmtime(input) > os.path.getmtime(output)`. -/
def shouldCopy (fs : FileSys) : Bool :=
  match fs.output with
  | none => true
  | some (_, outMtime) => decide (outMtime < fs.inputMtime)

/-- `shutil.copy2`: byte-for-byte copy that preserves the modification time. -/
def copy2 (fs : FileSys) : FileSys :=
  { fs with output := some (fs.inputBytes, fs.inputMtime) }

/-- The copy-if-stale block shared by the unreadable and non-grayscale
branches; `shutil.copy2` itself may raise. -/
def copyIfStale (u : WorkUnit) : Except String FileSys :=
  if shouldCopy u.fs then
    match u.copyExc with
    | some e => .error e
    | none => .ok (copy2 u.fs)
  else .ok u.fs

/-- The body of `process_single_image` inside the outer `try`. -/
def processBody (u : WorkUnit) : Except String FileSys :=
  match u.decoded with
  | .unreadable => copyIfStale u
  | .image img =>
    if Grayscale.is_grayscale img then
      match u.pipeline with
      | .ok bytes => .ok { u.fs with output := some (bytes, u.now) }
      | .error e => .error e
    else copyIfStale u

/-- What one work unit reports back: normal completion with the new
filesystem slice, or a logged failure (the outer `except` branch). -/
inductive Outcome
  | done (fs : FileSys)
  | failedLogged (e : String)
deriving DecidableEq

def process_single_image (u : WorkUnit) : Outcome :=
  match processBody u with
  | .ok fs => .done fs
  | .error e => .failedLogged e

/-- The worker pool: every submitted unit runs, independently. -/
def runBatch (units : List WorkUnit) : List Outcome :=
  units.map process_single_image

/-- C7: for a file classified non-grayscale or unreadable (and a copy call
that does not itself fail), the unit copies the source byte-for-byte to the
mirrored output path — preserving the input's modification time, as
`shutil.copy2` does — and it skips the copy, leaving the existing output
untouched, exactly when an output file already exists whose modification
time is at least the input's. -/
theorem copy_through_fidelity (u : WorkUnit)
    (hclass : u.decoded = Decoded.unreadable ∨
      ∃ img, u.decoded = Decoded.image img ∧ Grayscale.is_grayscale img = false)
    (hcopy : u.copyExc = none) :
    ((∃ bytes outMtime, u.fs.output = some (bytes, outMtime) ∧
        u.fs.inputMtime ≤ outMtime) →
      process_single_image u = Outcome.done u.fs) ∧
    (¬ (∃ bytes outMtime, u.fs.output = some (bytes, outMtime) ∧
        u.fs.inputMtime ≤ outMtime) →
      process_single_image u = Outcome.done
        { u.fs with output := some (u.fs.inputBytes, u.fs.inputMtime) }) := by
  have hbody : processBody u = copyIfStale u := by
    rcases hclass with hun | ⟨img, hdec, hng⟩
    · unfold processBody
      rw [hun]
    · unfold processBody
      rw [hdec]
      simp only [hng, Bool.false_eq_true, if_false]
  constructor
  · rintro ⟨bytes, outMtime, hout, hle⟩
    have hsc : shouldCopy u.fs = false := by
      unfold shouldCopy
      rw [hout]
      simp only [decide_eq_false_iff_not, not_lt]
      exact hle
    unfold process_single_image
    rw [hbody]
    unfold copyIfStale
    rw [hsc]
    simp
  · intro hnew
    have hsc : shouldCopy u.fs = true := by
      unfold shouldCopy
      rcases hout : u.fs.output with - | ⟨bytes, outMtime⟩
      · rfl
      · show decide (outMtime < u.fs.inputMtime) = true
        simp only [decide_eq_true_eq]
        by_contra hge
        exact hnew ⟨bytes, outMtime, hout, by omega⟩
    unfold process_single_image
    rw [hbody]
    unfold copyIfStale
    rw [hsc, hcopy]
    rfl

/-- C7 witness: a concrete non-grayscale unit whose output is up to date is
skipped, and the same unit with a stale output is copied byte-for-byte. -/
theorem copy_through_fidelity_witness :
    (process_single_image
        ⟨⟨[1, 2, 3], 10, some ([9], 10)⟩,
          Decoded.image ⟨Grayscale.PixMode.RGB, 1, 1, fun _ _ => (1, 2, 3, 0)⟩,
          Except.ok [], none, 99⟩
      = Outcome.done ⟨[1, 2, 3], 10, some ([9], 10)⟩) ∧
    (process_single_image
        ⟨⟨[1, 2, 3], 10, some ([9], 4)⟩,
          Decoded.image ⟨Grayscale.PixMode.RGB, 1, 1, fun _ _ => (1, 2, 3, 0)⟩,
          Except.ok [], none, 99⟩
      = Outcome.done ⟨[1, 2, 3], 10, some ([1, 2, 3], 10)⟩) :=
  ⟨(copy_through_fidelity _
      (Or.inr ⟨⟨Grayscale.PixMode.RGB, 1, 1, fun _ _ => (1, 2, 3, 0)⟩, rfl, by decide⟩)
      rfl).1 ⟨[9], 10, rfl, le_refl 10⟩,
   (copy_through_fidelity _
      (Or.inr ⟨⟨Grayscale.PixMode.RGB, 1, 1, fun _ _ => (1, 2, 3, 0)⟩, rfl, by decide⟩)
      rfl).2 (by
        rintro ⟨bytes, outMtime, hout, hle⟩
        have hpair : (([9], 4) : List ℕ × ℕ) = (bytes, outMtime) := Option.some.inj hout
        have h2 : (4 : ℕ) = outMtime := congrArg Prod.snd hpair
        rw [← h2] at hle
        have hle' : (10 : ℕ) ≤ 4 := hle
        omega)⟩

/-- C8: every exception raised inside a file-work unit is caught at the
unit boundary and turned into a logged-failure outcome; the worker pool
runs every unit, each unit's outcome depends only on that unit, and so the
batch never aborts because one file failed. -/
theorem failure_containment (units : List WorkUnit) (i : Fin units.length) :
    (runBatch units).length = units.length ∧
    (runBatch units).get ⟨i, by simp only [runBatch, List.length_map]; exact i.isLt⟩
      = process_single_image (units.get i) ∧
    (∀ e, processBody (units.get i) = Except.error e →
      process_single_image (units.get i) = Outcome.failedLogged e) := by
  refine ⟨List.length_map _ _, ?_, ?_⟩
  · simp [runBatch]
  · intro e he
    unfold process_single_image
    rw [he]

/-- C8 witness: a two-unit batch in which the first unit's pipeline raises;
the batch still has two outcomes, the failing unit reports a logged
failure, and the second unit is unaffected. -/
theorem failure_containment_witness :
    (runBatch
        [⟨⟨[5], 1, none⟩, Decoded.image ⟨Grayscale.PixMode.L, 1, 1, fun _ _ => (8, 0, 0, 0)⟩,
            Except.error "boom", none, 2⟩,
         ⟨⟨[6], 1, none⟩, Decoded.unreadable, Except.ok [], none, 2⟩]).length = 2 ∧
    (runBatch
        [⟨⟨[5], 1, none⟩, Decoded.image ⟨Grayscale.PixMode.L, 1, 1, fun _ _ => (8, 0, 0, 0)⟩,
            Except.error "boom", none, 2⟩,
         ⟨⟨[6], 1, none⟩, Decoded.unreadable, Except.ok [], none, 2⟩]).get
        ⟨0, by simp [runBatch]⟩
      = process_single_image
          ⟨⟨[5], 1, none⟩, Decoded.image ⟨Grayscale.PixMode.L, 1, 1, fun _ _ => (8, 0, 0, 0)⟩,
            Except.error "boom", none, 2⟩ ∧
    process_single_image
        ⟨⟨[5], 1, none⟩, Decoded.image ⟨Grayscale.PixMode.L, 1, 1, fun _ _ => (8, 0, 0, 0)⟩,
          Except.error "boom", none, 2⟩
      = Outcome.failedLogged "boom" := by
  have h := failure_containment
    [⟨⟨[5], 1, none⟩, Decoded.image ⟨Grayscale.PixMode.L, 1, 1, fun _ _ => (8, 0, 0, 0)⟩,
        Except.error "boom", none, 2⟩,
     ⟨⟨[6], 1, none⟩, Decoded.unreadable, Except.ok [], none, 2⟩] ⟨0, by simp⟩
  exact ⟨h.1, h.2.1, h.2.2 "boom" rfl⟩

/-- C10: a readable file classified grayscale is always run through the
pipeline and its output written, whatever the state of the output path —
in particular even when an output newer than the input already exists; the
modification-time skip never applies to the grayscale branch. -/
theorem grayscale_always_processed (u : WorkUnit) (img : Grayscale.PILImage)
    (bytes : List ℕ) (hdec : u.decoded = Decoded.image img)
    (hgray : Grayscale.is_grayscale img = true)
    (hpipe : u.pipeline = Except.ok bytes) :
    process_single_image u = Outcome.done { u.fs with output := some (bytes, u.now) } := by
  unfold process_single_image processBody
  rw [hdec]
  simp only [hgray, if_true, hpipe]

/-- C10 witness: a concrete grayscale unit whose output path already holds
a file strictly newer than the input is reprocessed and overwritten
anyway. -/
theorem grayscale_always_processed_witness :
    process_single_image
        ⟨⟨[5], 1, some ([7], 1000)⟩,
          Decoded.image ⟨Grayscale.PixMode.L, 1, 1, fun _ _ => (8, 0, 0, 0)⟩,
          Except.ok [4, 4], none, 2⟩
      = Outcome.done ⟨[5], 1, some ([4, 4], 2)⟩ :=
  grayscale_always_processed _ ⟨Grayscale.PixMode.L, 1, 1, fun _ _ => (8, 0, 0, 0)⟩
    [4, 4] rfl rfl rfl

end Dispatch

namespace Batch

/-! ## Batch orchestrator (embedding of `process_images_in_folder`)

The source walks the input tree with `os.walk`, sorts directory entries
with `natural_key` (split a name into maximal digit / non-digit runs,
digit runs compared numerically, other runs lowercased), mirrors each
directory under the output root, and enqueues one `(input, output)` job
per file, the output path being the input's path relative to the input
root re-rooted at the output root with the filename unchanged.  The jobs
are then submitted to a `ThreadPoolExecutor(max_workers)`; the pool size
plays no part in building the job list.  Paths are modelled as lists of
components. -/

/-- Maximal digit / non-digit runs of a character list, as
`re.split(r'(\d+)', s)` produces them: the runs alternate, starting and
ending with a (possibly empty) non-digit run, and digit runs are
non-empty.  `true` marks a digit run. -/
def chunksAux : List Char → List (Bool × List Char)
  | [] => [(false, [])]
  | c :: rest =>
    let k := chunksAux rest
    if c.isDigit then
      match k with
      | (false, []) :: (true, ds) :: t => (false, []) :: (true, c :: ds) :: t
      | _ => (false, []) :: (true, [c]) :: k
    else
      match k with
      | (false, s) :: t => (false, c :: s) :: t
      | k => (false, [c]) :: k

/-- `int(text)` on a digit run. -/
def digitsToNat (cs : List Char) : ℕ :=
  cs.foldl (fun n c => 10 * n + (c.toNat - 48)) 0

/-- `natural_key`: digit runs become numbers, other runs are lowercased. -/
def natural_key (s : String) : List (String ⊕ ℕ) :=
  (chunksAux s.data).map fun p =>
    if p.1 then Sum.inr (digitsToNat p.2) else Sum.inl (String.mk (p.2.map Char.toLower))

/-- Strict comparison of key parts.  Two `natural_key`s always carry the
same constructor at the same position (runs alternate starting with a
string run), so the mixed cases are never reached when sorting. -/
def partLT : (String ⊕ ℕ) → (String ⊕ ℕ) → Bool
  | Sum.inl a, Sum.inl b => decide (a < b)
  | Sum.inr a, Sum.inr b => decide (a < b)
  | Sum.inl _, Sum.inr _ => true
  | Sum.inr _, Sum.inl _ => false

def keyLE : List (String ⊕ ℕ) → List (String ⊕ ℕ) → Bool
  | [], _ => true
  | _ :: _, [] => false
  | a :: as, b :: bs =>
    if partLT a b then true
    else if partLT b a then false
    else keyLE as bs

def naturalLE (a b : String) : Bool := keyLE (natural_key a) (natural_key b)

/-- One directory visited by `os.walk`: its path relative to the input
root (`[]` for the root itself, where `relpath` returns `'.'`) and the
names of the plain files it holds. -/
structure WalkEntry where
  relDir : List String
  files : List String

/-- The relative paths of all input files of the walked tree. -/
def inputFiles (walk : List WalkEntry) : List (List String) :=
  walk.flatMap fun e => e.files.map fun fn => e.relDir ++ [fn]

/-- The `(input relative path, output path)` job list built by
`process_images_in_folder` before submission to the pool. -/
def jobsOf (outRoot : List String) (walk : List WalkEntry) :
    List (List String × List String) :=
  walk.flatMap fun e =>
    (e.files.mergeSort naturalLE).map fun fn =>
      (e.relDir ++ [fn], outRoot ++ e.relDir ++ [fn])

/-- The output paths the orchestrator dispatches work for.  `maxWorkers`
only sizes the thread pool in the source; it does not enter the job
list. -/
def process_images_in_folder (outRoot : List String) (walk : List WalkEntry)
    (maxWorkers : ℕ) : List (List String) :=
  let _ := maxWorkers
  (jobsOf outRoot walk).map Prod.snd

lemma outputs_perm (outRoot : List String) (walk : List WalkEntry) (w : ℕ) :
    (process_images_in_folder outRoot walk w).Perm
      ((inputFiles walk).map fun rel => outRoot ++ rel) := by
  unfold process_images_in_folder jobsOf inputFiles
  rw [List.map_flatMap, List.map_flatMap]
  refine List.Perm.flatMap_left walk fun e _ => ?_
  rw [List.map_map, List.map_map]
  have hfun : (Prod.snd ∘ fun fn => (e.relDir ++ [fn], outRoot ++ e.relDir ++ [fn]))
      = ((fun rel => outRoot ++ rel) ∘ fun fn => e.relDir ++ [fn]) := by
    funext fn
    simp [List.append_assoc]
  rw [hfun]
  exact (List.mergeSort_perm e.files naturalLE).map _

lemma outRoot_append_injective (outRoot : List String) :
    Function.Injective (fun rel : List String => outRoot ++ rel) := by
  intro a b hab
  exact List.append_cancel_left hab

/-- C4: the job list — and hence the set of output files produced — is
identical for worker-pool sizes 1 and 8; when the walked input paths are
distinct (as filesystem paths are), the dispatched output paths are a
permutation of the mirrored input paths `outRoot ++ rel` (same filename,
same relative directory) with no duplicates — exactly one output per input
file — and a work unit run against an absent output path (the initially
empty output root) always completes with an output file present, whatever
its classification. -/
theorem batch_completeness (outRoot : List String) (walk : List WalkEntry)
    (hnodup : (inputFiles walk).Nodup) :
    process_images_in_folder outRoot walk 1 = process_images_in_folder outRoot walk 8 ∧
    (process_images_in_folder outRoot walk 1).Perm
      ((inputFiles walk).map fun rel => outRoot ++ rel) ∧
    (process_images_in_folder outRoot walk 1).Nodup ∧
    (∀ u : Dispatch.WorkUnit, u.fs.output = none → u.copyExc = none →
      (∀ e, u.pipeline ≠ Except.error e) →
      ∃ content mtime, Dispatch.process_single_image u
        = Dispatch.Outcome.done { u.fs with output := some (content, mtime) }) := by
  have hperm := outputs_perm outRoot walk 1
  refine ⟨rfl, hperm, ?_, ?_⟩
  · exact hperm.nodup_iff.mpr (hnodup.map (outRoot_append_injective outRoot))
  · intro u hnone hcopy hpipe
    rcases hdec : u.decoded with - | img
    · refine ⟨u.fs.inputBytes, u.fs.inputMtime, ?_⟩
      unfold Dispatch.process_single_image Dispatch.processBody
      rw [hdec]
      unfold Dispatch.copyIfStale
      have hsc : Dispatch.shouldCopy u.fs = true := by
        unfold Dispatch.shouldCopy
        rw [hnone]
      rw [hsc, hcopy]
      rfl
    · by_cases hgray : Grayscale.is_grayscale img = true
      · rcases hpipeRes : u.pipeline with e | bytes
        · exact absurd hpipeRes (hpipe e)
        · refine ⟨bytes, u.now, ?_⟩
          unfold Dispatch.process_single_image Dispatch.processBody
          rw [hdec]
          simp only [hgray, if_true, hpipeRes]
      · refine ⟨u.fs.inputBytes, u.fs.inputMtime, ?_⟩
        unfold Dispatch.process_single_image Dispatch.processBody
        rw [hdec]
        simp only [hgray, if_false]
        unfold Dispatch.copyIfStale
        have hsc : Dispatch.shouldCopy u.fs = true := by
          unfold Dispatch.shouldCopy
          rw [hnone]
        rw [hsc, hcopy]
        rfl

/-- C4 witness: a concrete two-directory tree with three files. -/
theorem batch_completeness_witness :
    process_images_in_folder ["out"]
        [⟨[], ["b.png", "a10.png"]⟩, ⟨["ch2"], ["a2.png"]⟩] 1
      = process_images_in_folder ["out"]
        [⟨[], ["b.png", "a10.png"]⟩, ⟨["ch2"], ["a2.png"]⟩] 8 ∧
    (process_images_in_folder ["out"]
        [⟨[], ["b.png", "a10.png"]⟩, ⟨["ch2"], ["a2.png"]⟩] 1).Perm
      ((inputFiles [⟨[], ["b.png", "a10.png"]⟩, ⟨["ch2"], ["a2.png"]⟩]).map
        fun rel => ["out"] ++ rel) ∧
    (process_images_in_folder ["out"]
        [⟨[], ["b.png", "a10.png"]⟩, ⟨["ch2"], ["a2.png"]⟩] 1).Nodup ∧
    (∀ u : Dispatch.WorkUnit, u.fs.output = none → u.copyExc = none →
      (∀ e, u.pipeline ≠ Except.error e) →
      ∃ content mtime, Dispatch.process_single_image u
        = Dispatch.Outcome.done { u.fs with output := some (content, mtime) }) :=
  batch_completeness ["out"] [⟨[], ["b.png", "a10.png"]⟩, ⟨["ch2"], ["a2.png"]⟩]
    (by decide)

end Batch

namespace Pentropy

/-! ## Entropy binarization (embedding of `pentropy_binarization`)

The source builds the 256-bin histogram of a uint8 image, normalizes it to
probabilities `p i`, precomputes `p i · ln (p i)` where `p i > 1e-9` (zero
elsewhere), and scans `s_threshold in range(255)` — `s = 0 .. 254` — with
`P_s = Σ_{i ≤ s} p i`: splits with `P_s < 1e-9` or `1 - P_s < 1e-9` are
skipped, otherwise `TE(s) = ln(P_s (1-P_s)) - H_s/P_s - H'_s/(1-P_s)` is
compared strictly against the running maximum (initially `-inf`).  When no
split was ever taken the threshold falls back to 127 with a printed
warning; an empty image returns threshold 0.  The image is modelled as its
list of pixel values and the float arithmetic by exact ℚ/ℝ. -/

def hist (img : List ℕ) (i : ℕ) : ℕ := img.count i

def total (img : List ℕ) : ℕ := img.length

def p (img : List ℕ) (i : ℕ) : ℚ := (hist img i : ℚ) / (total img : ℚ)

/-- the `1e-9` guard of the source -/
def eps : ℚ := 1 / 1000000000

def P (img : List ℕ) (s : ℕ) : ℚ := ∑ i ∈ Finset.range (s + 1), p img i

/-- a split is kept when neither class mass falls below `1e-9` -/
def validB (img : List ℕ) (s : ℕ) : Bool :=
  !(decide (P img s < eps) || decide (1 - P img s < eps))

noncomputable def pln (img : List ℕ) (i : ℕ) : ℝ :=
  if eps < p img i then ((p img i : ℚ) : ℝ) * Real.log ((p img i : ℚ) : ℝ) else 0

noncomputable def H (img : List ℕ) (s : ℕ) : ℝ :=
  ∑ i ∈ Finset.range (s + 1), pln img i

noncomputable def Hprime (img : List ℕ) (s : ℕ) : ℝ :=
  ∑ i ∈ Finset.Ico (s + 1) 256, pln img i

noncomputable def TE (img : List ℕ) (s : ℕ) : ℝ :=
  Real.log (((P img s : ℚ) : ℝ) * (1 - ((P img s : ℚ) : ℝ)))
    - H img s / ((P img s : ℚ) : ℝ)
    - Hprime img s / (1 - ((P img s : ℚ) : ℝ))

open Classical in
/-- One iteration of the scan: the accumulator holds the current best
split (`none` = running maximum still `-inf`). -/
noncomputable def entStep (img : List ℕ) (acc : Option ℕ) (s : ℕ) : Option ℕ :=
  if validB img s then
    match acc with
    | none => some s
    | some b => if TE img b < TE img s then some s else acc
  else acc

noncomputable def pentropy_threshold (img : List ℕ) : ℕ :=
  if total img = 0 then 0
  else
    match (List.range 255).foldl (entStep img) none with
    | none => 127
    | some b => b

/-- The full return value: the threshold and the `cv2.threshold(...,
THRESH_BINARY)` image (255 where the pixel exceeds the threshold). -/
noncomputable def pentropy_binarization (img : List ℕ) : ℕ × List ℕ :=
  (pentropy_threshold img,
    img.map fun v => if pentropy_threshold img < v then 255 else 0)

/-- Loop invariant of the scan: a `none` result means every processed
split was skipped; a `some b` result is a kept split at least as good (in
`TE`) as every processed kept split and as the incoming accumulator. -/
def IsBest (img : List ℕ) (L : List ℕ) (acc r : Option ℕ) : Prop :=
  match r with
  | none => acc = none ∧ ∀ s ∈ L, validB img s = false
  | some b => validB img b = true ∧ (acc = some b ∨ b ∈ L) ∧
      (∀ s ∈ L, validB img s = true → TE img s ≤ TE img b) ∧
      (∀ a, acc = some a → TE img a ≤ TE img b)

lemma fold_isBest (img : List ℕ) (L : List ℕ) : ∀ (acc : Option ℕ),
    (∀ a, acc = some a → validB img a = true) →
    IsBest img L acc (L.foldl (entStep img) acc) := by
  induction L with
  | nil =>
    intro acc hacc
    rw [List.foldl_nil]
    cases acc with
    | none => exact ⟨rfl, fun s hs => absurd hs (List.not_mem_nil s)⟩
    | some a =>
      refine ⟨hacc a rfl, Or.inl rfl, fun s hs => absurd hs (List.not_mem_nil s), ?_⟩
      intro a' ha'
      cases ha'
      exact le_refl _
  | cons s L ih =>
    intro acc hacc
    rw [List.foldl_cons]
    by_cases hv : validB img s = true
    · cases acc with
      | none =>
        have hstep : entStep img none s = some s := by
          unfold entStep
          rw [if_pos hv]
        rw [hstep]
        have h := ih (some s) (fun a ha => by cases ha; exact hv)
        cases hr : L.foldl (entStep img) (some s) with
        | none =>
          rw [hr] at h
          cases h.1
        | some b =>
          rw [hr] at h
          obtain ⟨hvb, hmem, hball, hbacc⟩ := h
          refine ⟨hvb, Or.inr ?_, ?_, ?_⟩
          · rcases hmem with heq | hmemL
            · cases heq
              exact List.mem_cons_self _ _
            · exact List.mem_cons_of_mem _ hmemL
          · intro s' hs' hv'
            rcases List.mem_cons.mp hs' with rfl | hmemL
            · exact hbacc s' rfl
            · exact hball s' hmemL hv'
          · intro a ha
            cases ha
      | some a =>
        by_cases hlt : TE img a < TE img s
        · have hstep : entStep img (some a) s = some s := by
            unfold entStep
            rw [if_pos hv]
            simp only [if_pos hlt]
          rw [hstep]
          have h := ih (some s) (fun a' ha' => by cases ha'; exact hv)
          cases hr : L.foldl (entStep img) (some s) with
          | none =>
            rw [hr] at h
            cases h.1
          | some b =>
            rw [hr] at h
            obtain ⟨hvb, hmem, hball, hbacc⟩ := h
            refine ⟨hvb, Or.inr ?_, ?_, ?_⟩
            · rcases hmem with heq | hmemL
              · cases heq
                exact List.mem_cons_self _ _
              · exact List.mem_cons_of_mem _ hmemL
            · intro s' hs' hv'
              rcases List.mem_cons.mp hs' with rfl | hmemL
              · exact hbacc s' rfl
              · exact hball s' hmemL hv'
            · intro a' ha'
              cases ha'
              exact le_trans (le_of_lt hlt) (hbacc s rfl)
        · have hstep : entStep img (some a) s = some a := by
            unfold entStep
            rw [if_pos hv]
            simp only [if_neg hlt]
          rw [hstep]
          have h := ih (some a) hacc
          cases hr : L.foldl (entStep img) (some a) with
          | none =>
            rw [hr] at h
            cases h.1
          | some b =>
            rw [hr] at h
            obtain ⟨hvb, hmem, hball, hbacc⟩ := h
            refine ⟨hvb, ?_, ?_, hbacc⟩
            · rcases hmem with heq | hmemL
              · exact Or.inl heq
              · exact Or.inr (List.mem_cons_of_mem _ hmemL)
            · intro s' hs' hv'
              rcases List.mem_cons.mp hs' with rfl | hmemL
              · exact le_trans (not_lt.mp hlt) (hbacc a rfl)
              · exact hball s' hmemL hv'
    · have hstep : entStep img acc s = acc := by
        unfold entStep
        rw [if_neg hv]
      rw [hstep]
      have h := ih acc hacc
      cases hr : L.foldl (entStep img) acc with
      | none =>
        rw [hr] at h
        refine ⟨h.1, ?_⟩
        intro s' hs'
        rcases List.mem_cons.mp hs' with rfl | hmemL
        · exact Bool.not_eq_true _ ▸ eq_false_of_ne_true hv
        · exact h.2 s' hmemL
      | some b =>
        rw [hr] at h
        obtain ⟨hvb, hmem, hball, hbacc⟩ := h
        refine ⟨hvb, ?_, ?_, hbacc⟩
        · rcases hmem with heq | hmemL
          · exact Or.inl heq
          · exact Or.inr (List.mem_cons_of_mem _ hmemL)
        · intro s' hs' hv'
          rcases List.mem_cons.mp hs' with rfl | hmemL
          · exact absurd hv' hv
          · exact hball s' hmemL hv'

/-- C3 (amended): for a non-empty image, when some split `s ∈ [0, 255)`
survives the epsilon guard the returned threshold is such a split and
maximizes `TE` among all surviving splits in `[0, 255)`; when every split
in `[0, 255)` is skipped, the threshold falls back to 127 — in both cases
the function is total: it never raises. -/
theorem entropy_threshold_maximizes (img : List ℕ) (hne : img ≠ []) :
    ((∃ s, s < 255 ∧ validB img s = true) →
      pentropy_threshold img < 255 ∧
      validB img (pentropy_threshold img) = true ∧
      ∀ s, s < 255 → validB img s = true → TE img s ≤ TE img (pentropy_threshold img)) ∧
    ((∀ s, s < 255 → validB img s = false) → pentropy_threshold img = 127) := by
  have htot : ¬ (total img = 0) := by
    unfold total
    simpa using hne
  have hfold := fold_isBest img (List.range 255) none (fun a ha => by cases ha)
  constructor
  · rintro ⟨s0, hs0, hv0⟩
    cases hr : (List.range 255).foldl (entStep img) none with
    | none =>
      rw [hr] at hfold
      have := hfold.2 s0 (List.mem_range.mpr hs0)
      rw [hv0] at this
      cases this
    | some b =>
      rw [hr] at hfold
      obtain ⟨hvb, hmem, hball, -⟩ := hfold
      have hbmem : b ∈ List.range 255 := by
        rcases hmem with heq | hmemL
        · cases heq
        · exact hmemL
      have hteq : pentropy_threshold img = b := by
        unfold pentropy_threshold
        rw [if_neg htot, hr]
      rw [hteq]
      exact ⟨List.mem_range.mp hbmem, hvb,
        fun s hs hv => hball s (List.mem_range.mpr hs) hv⟩
  · intro hall
    cases hr : (List.range 255).foldl (entStep img) none with
    | none =>
      unfold pentropy_threshold
      rw [if_neg htot, hr]
    | some b =>
      rw [hr] at hfold
      obtain ⟨hvb, hmem, -, -⟩ := hfold
      have hbmem : b ∈ List.range 255 := by
        rcases hmem with heq | hmemL
        · cases heq
        · exact hmemL
      have := hall b (List.mem_range.mp hbmem)
      rw [hvb] at this
      cases this

/-- C3 witness: the two-pixel image `[0, 200]`, whose split 0 survives the
guard. -/
theorem entropy_threshold_maximizes_witness :
    ((∃ s, s < 255 ∧ validB [0, 200] s = true) →
      pentropy_threshold [0, 200] < 255 ∧
      validB [0, 200] (pentropy_threshold [0, 200]) = true ∧
      ∀ s, s < 255 → validB [0, 200] s = true →
        TE [0, 200] s ≤ TE [0, 200] (pentropy_threshold [0, 200])) ∧
    ((∀ s, s < 255 → validB [0, 200] s = false) → pentropy_threshold [0, 200] = 127) :=
  entropy_threshold_maximizes [0, 200] (by simp)

lemma validB_false_iff (img : List ℕ) (s : ℕ) :
    validB img s = false ↔ (P img s < eps ∨ 1 - P img s < eps) := by
  unfold validB
  simp only [Bool.not_eq_false', Bool.or_eq_true, decide_eq_true_eq]

lemma validB_true_iff (img : List ℕ) (s : ℕ) :
    validB img s = true ↔ (¬ P img s < eps ∧ ¬ (1 - P img s < eps)) := by
  unfold validB
  simp only [Bool.not_eq_true', Bool.or_eq_false_iff, decide_eq_false_iff_not]

lemma count_small (i : ℕ) (h : i < 254) : List.count i [254, 255] = 0 := by
  rw [List.count_eq_zero]
  intro hmem
  rcases List.mem_cons.mp hmem with rfl | hmem'
  · omega
  · rcases List.mem_cons.mp hmem' with rfl | hmem''
    · omega
    · exact absurd hmem'' (List.not_mem_nil i)

lemma p_small (i : ℕ) (h : i < 254) : p [254, 255] i = 0 := by
  unfold p hist total
  rw [count_small i h]
  norm_num

lemma P_small (s : ℕ) (h : s < 254) : P [254, 255] s = 0 := by
  unfold P
  refine Finset.sum_eq_zero fun i hi => p_small i ?_
  have := Finset.mem_range.mp hi
  omega

lemma P_at_254 : P [254, 255] 254 = 1 / 2 := by
  unfold P
  rw [Finset.sum_range_succ,
    Finset.sum_eq_zero fun i hi => p_small i (Finset.mem_range.mp hi), zero_add]
  unfold p hist total
  have hc : List.count 254 [254, 255] = 1 := by decide
  rw [hc]
  norm_num

/-- C3 counterexample: on the two-pixel image `[254, 255]` every split in
the claimed candidate range `[0, 254)` is skipped by the epsilon guard (its
background mass is zero), so by the claim the threshold should fall back to
127; the code scans `range(255)`, also tries the split `s = 254`, which
survives the guard, and returns 254. -/
theorem entropy_threshold_range_counterexample :
    (∀ s, s < 254 → validB [254, 255] s = false) ∧
    pentropy_threshold [254, 255] = 254 ∧
    pentropy_threshold [254, 255] ≠ 127 := by
  have hfold := fold_isBest [254, 255] (List.range 255) none (fun a ha => by cases ha)
  have hv254 : validB [254, 255] 254 = true := by
    rw [validB_true_iff, P_at_254]
    norm_num [eps]
  have h254lt : ∀ s, s < 254 → validB [254, 255] s = false := by
    intro s hs
    rw [validB_false_iff, P_small s hs]
    norm_num [eps]
  have hval : ∀ s, s < 255 → validB [254, 255] s = true → s = 254 := by
    intro s hs hv
    by_contra hne
    have hs' : s < 254 := by omega
    rw [h254lt s hs'] at hv
    cases hv
  have heq : pentropy_threshold [254, 255] = 254 := by
    cases hr : (List.range 255).foldl (entStep [254, 255]) none with
    | none =>
      rw [hr] at hfold
      have := hfold.2 254 (List.mem_range.mpr (by omega))
      rw [hv254] at this
      cases this
    | some b =>
      rw [hr] at hfold
      obtain ⟨hvb, hmem, -, -⟩ := hfold
      have hbmem : b ∈ List.range 255 := by
        rcases hmem with hmemEq | hmemL
        · cases hmemEq
        · exact hmemL
      have hb : b = 254 := hval b (List.mem_range.mp hbmem) hvb
      unfold pentropy_threshold
      rw [if_neg (by decide), hr, hb]
  exact ⟨h254lt, heq, by rw [heq]; omega⟩

end Pentropy
